import Mathlib

/-!
Verification of the formatting-violation reconciliation engine of the
csharpier-action repository.

The development shallowly embeds the engine:

* a model of the line diff produced by the `diff` library's
  `structuredPatch` (line LCS, hunks with three lines of context),
* `generateFormattingHunks`, `getExistingComments`, `findLineInPRDiff`,
  `createViolationComments` and `resolveFixedComments` from
  `src/comment-manager.ts`, and the variant of `generateFormattingHunks`
  and `createViolationComments` that splits a diff hunk into one
  sub-hunk per contiguous change block (namespace `V2`),
* `formatFiles` from `src/csharpier-runner.ts`,
* a failure-aware variant of the mutation pipeline where any single
  mutation call against the comment store may fail.

Side effects are modelled by returning the ordered list of mutation
calls (`Call`) the engine issues against the external comment store.
-/

namespace CSharpier

/-- Tag and text of one line of a unified diff hunk: context, addition
or deletion. -/
inductive DiffLine where
  | ctx (s : String)
  | add (s : String)
  | del (s : String)
deriving DecidableEq

/-- One hunk of the structured patch produced by diffing the original
against the formatted content, as in the `diff` npm library. -/
structure Hunk where
  oldStart : Nat
  oldLines : Nat
  newStart : Nat
  newLines : Nat
  lines : List DiffLine
deriving DecidableEq

/-- Split a character list at every occurrence of the separator, like
the JavaScript `String.prototype.split` with a one-character separator. -/
def splitOnChar (sep : Char) : List Char → List (List Char)
  | [] => [[]]
  | c :: cs =>
    if c = sep then [] :: splitOnChar sep cs
    else
      match splitOnChar sep cs with
      | [] => [[c]]
      | l :: ls => (c :: l) :: ls

/-- Split a string into its lines, like splitting on the newline
character in JavaScript. -/
def splitLines (s : String) : List String :=
  (splitOnChar '\n' s.data).map (fun l => String.mk l)

/-- Join lines with newline separators, like `Array.prototype.join`
with a newline. -/
def joinLines : List String → String
  | [] => ""
  | [x] => x
  | x :: xs => x ++ "\n" ++ joinLines xs

/-- Longest common subsequence of two line lists, with an explicit fuel
argument so that the definition is structurally recursive. -/
def lcsFuel : Nat → List String → List String → List String
  | 0, _, _ => []
  | _, [], _ => []
  | _, _, [] => []
  | fuel + 1, a :: as, b :: bs =>
    if a = b then a :: lcsFuel fuel as bs
    else
      let l1 := lcsFuel fuel (a :: as) bs
      let l2 := lcsFuel fuel as (b :: bs)
      if l1.length < l2.length then l2 else l1

/-- Longest common subsequence of two line lists. -/
def lcs (a b : List String) : List String :=
  lcsFuel (a.length + b.length) a b

/-- Split a list at the first occurrence of a given element, dropping
that element. -/
def breakAt (c : String) : List String → List String × List String
  | [] => ([], [])
  | x :: xs =>
    if x = c then ([], xs)
    else
      let p := breakAt c xs
      (x :: p.1, p.2)

/-- One entry of a line diff: an unchanged, deleted or inserted line.
Deletions of a change block come before its insertions, as in the
`diff` library output. -/
inductive DiffOp where
  | eq (s : String)
  | del (s : String)
  | ins (s : String)
deriving DecidableEq

/-- Turn an LCS into the full edit script: lines outside the common
subsequence become deletions (old side) and insertions (new side),
with deletions first within each gap. -/
def interleave : List String → List String → List String → List DiffOp
  | old, new, [] => old.map DiffOp.del ++ new.map DiffOp.ins
  | old, new, c :: cs =>
    let po := breakAt c old
    let pn := breakAt c new
    po.1.map DiffOp.del ++ pn.1.map DiffOp.ins ++ [DiffOp.eq c]
      ++ interleave po.2 pn.2 cs

/-- Line-based edit script between two line lists. -/
def diffOps (old new : List String) : List DiffOp :=
  interleave old new (lcs old new)

/-- Kind of a maximal run of identical edit operations. -/
inductive RunKind where
  | eqR
  | delR
  | insR
deriving DecidableEq

/-- A maximal run of consecutive edit operations of one kind. -/
structure DiffRun where
  kind : RunKind
  texts : List String
deriving DecidableEq

/-- Kind of a single edit operation. -/
def opKind : DiffOp → RunKind
  | .eq _ => .eqR
  | .del _ => .delR
  | .ins _ => .insR

/-- Text carried by a single edit operation. -/
def opText : DiffOp → String
  | .eq s => s
  | .del s => s
  | .ins s => s

/-- Group an edit script into maximal runs of equal kind. -/
def groupRuns : List DiffOp → List DiffRun
  | [] => []
  | op :: ops =>
    match groupRuns ops with
    | [] => [⟨opKind op, [opText op]⟩]
    | r :: rs =>
      if r.kind = opKind op then ⟨r.kind, opText op :: r.texts⟩ :: rs
      else ⟨opKind op, [opText op]⟩ :: r :: rs

/-- True of diff lines present on the old side (context and deletions). -/
def isOldSide : DiffLine → Bool
  | .add _ => false
  | _ => true

/-- True of diff lines present on the new side (context and additions). -/
def isNewSide : DiffLine → Bool
  | .del _ => false
  | _ => true

/-- Assemble a hunk record from its start coordinates and lines,
deriving the old and new line counts from the tagged lines. -/
def mkHunk (os ns : Nat) (ls : List DiffLine) : Hunk :=
  ⟨os, ls.countP isOldSide, ns, ls.countP isNewSide, ls⟩

/-- Assemble hunks from the runs of an edit script with a given number
of context lines, following the hunk construction of the `diff`
library's `structuredPatch`: an unchanged run longer than twice the
context (or final) closes the open hunk keeping leading context lines,
and the trailing context lines of an unchanged run become the leading
context of the next hunk. -/
def buildHunks (context : Nat) :
    Nat → Nat → List String → Option (Nat × Nat × List DiffLine) → List DiffRun → List Hunk
  | _, _, _, none, [] => []
  | _, _, _, some (os, ns, ls), [] => [mkHunk os ns ls]
  | oldL, newL, lead, cur, r :: rs =>
    match r.kind with
    | .eqR =>
      let k := r.texts.length
      match cur with
      | some (os, ns, ls) =>
        if k ≤ 2 * context ∧ rs ≠ [] then
          buildHunks context (oldL + k) (newL + k) []
            (some (os, ns, ls ++ r.texts.map DiffLine.ctx)) rs
        else
          mkHunk os ns (ls ++ (r.texts.take context).map DiffLine.ctx)
            :: buildHunks context (oldL + k) (newL + k)
                (r.texts.drop (k - context)) none rs
      | none =>
        buildHunks context (oldL + k) (newL + k) (r.texts.drop (k - context)) none rs
    | .delR =>
      let k := r.texts.length
      match cur with
      | some (os, ns, ls) =>
        buildHunks context (oldL + k) newL lead
          (some (os, ns, ls ++ r.texts.map DiffLine.del)) rs
      | none =>
        buildHunks context (oldL + k) newL []
          (some (oldL - lead.length, newL - lead.length,
            lead.map DiffLine.ctx ++ r.texts.map DiffLine.del)) rs
    | .insR =>
      let k := r.texts.length
      match cur with
      | some (os, ns, ls) =>
        buildHunks context oldL (newL + k) lead
          (some (os, ns, ls ++ r.texts.map DiffLine.add)) rs
      | none =>
        buildHunks context oldL (newL + k) []
          (some (oldL - lead.length, newL - lead.length,
            lead.map DiffLine.ctx ++ r.texts.map DiffLine.add)) rs

/-- Model of `structuredPatch(file, file, original, formatted, { context: 3 })`
restricted to its hunks: line diff with three lines of context. -/
def structuredPatch (old new : List String) : List Hunk :=
  buildHunks 3 1 1 [] none (groupRuns (diffOps old new))

/-- True of diff hunk lines that are changes (additions or deletions),
matching the source's check for a leading `+` or `-`. -/
def isChange (l : DiffLine) : Bool :=
  match l with
  | .ctx _ => false
  | _ => true

/-- Text of an addition line, none otherwise; models collecting lines
that start with `+`. -/
def addText : DiffLine → Option String
  | .add s => some s
  | _ => none

/-- Text of a context or addition line, none for a deletion; models
collecting lines that start with a space or `+`. -/
def newText : DiffLine → Option String
  | .add s => some s
  | .ctx s => some s
  | .del _ => none

/-- A formatting hunk as produced by `generateFormattingHunks`: the
anchor line number in the formatted file, the suggestion content, and
the original line range of the parent diff hunk. -/
structure FormattingHunk where
  lineNumber : Nat
  content : String
  rangeStart : Nat
  rangeStop : Nat
deriving DecidableEq

/-- Per-hunk body of `generateFormattingHunks` in `comment-manager.ts`:
locate the first and last change lines of the diff hunk, anchor at the
new-file line number of the first change, and collect only the
addition lines between the first and last change as the content. -/
def processHunk (h : Hunk) : Option FormattingHunk :=
  match h.lines.findIdx? isChange with
  | none => none
  | some fi =>
    let li := h.lines.length - 1 - ((h.lines.reverse.findIdx? isChange).getD 0)
    let firstChangeLine := h.newStart + (h.lines.take fi).countP isNewSide
    let formattedLines := ((h.lines.drop fi).take (li - fi + 1)).filterMap addText
    if formattedLines = [] then none
    else
      some ⟨firstChangeLine, joinLines formattedLines,
        h.oldStart, h.oldStart + h.oldLines - 1⟩

/-- Model of `generateFormattingHunks` from `comment-manager.ts`: diff
the original against the formatted content and derive one formatting
hunk per diff hunk that contains at least one addition. -/
def generateFormattingHunks (originalContent formattedContent : String) :
    List FormattingHunk :=
  (structuredPatch (splitLines originalContent)
    (splitLines formattedContent)).filterMap processHunk

/-- Type of one change entry of a parsed pull request diff chunk. -/
inductive ChangeType where
  | add
  | del
  | normal
deriving DecidableEq

/-- One chunk of the parsed pull request patch, as returned by the
`parse-diff` library: the declared new-file start line and the ordered
change entries. -/
structure PRChunk where
  newStart : Nat
  changes : List ChangeType
deriving DecidableEq

/-- One file of a parsed pull request patch. -/
structure FileDiff where
  chunks : List PRChunk
deriving DecidableEq

/-- True of change entries that occupy a line of the new file. -/
def isNewLineChange : ChangeType → Bool
  | .add => true
  | .normal => true
  | .del => false

/-- Inner loop of `findLineInPRDiff`: walk the changes of one chunk,
advancing the new-file line counter on add and normal entries only and
returning the counter as soon as it equals the target. -/
def findInChunk (targetLine : Nat) : Nat → List ChangeType → Option Nat
  | _, [] => none
  | cur, c :: cs =>
    if isNewLineChange c then
      if cur = targetLine then some cur
      else findInChunk targetLine (cur + 1) cs
    else findInChunk targetLine cur cs

/-- Walk the chunks of a file in order, returning the first hit. -/
def findInChunks (targetLine : Nat) : List PRChunk → Option Nat
  | [] => none
  | ch :: rest =>
    match findInChunk targetLine ch.newStart ch.changes with
    | some v => some v
    | none => findInChunks targetLine rest

/-- Model of `findLineInPRDiff` from `comment-manager.ts`, taking the
patch already parsed by the external `parse-diff` library: only the
first file of the parse result is consulted; 0 means not found. -/
def findLineInPRDiff (parsed : List FileDiff) (targetLine : Nat) : Nat :=
  match parsed with
  | [] => 0
  | file :: _ => (findInChunks targetLine file.chunks).getD 0

/-- A review comment as fetched from the comment store. -/
structure ReviewComment where
  id : Nat
  path : String
  body : Option String
  in_reply_to_id : Option Nat
  line : Option Nat
  original_line : Option Nat
deriving DecidableEq

/-- A violation comment derived by `getExistingComments`. -/
structure ViolationComment where
  id : Nat
  path : String
  body : String
  isResolved : Bool
  line : Nat
deriving DecidableEq

/-- Marker used to identify comments created by this action. -/
def COMMENT_MARKER : String := "<!-- csharpier-action -->"

/-- Decide whether the pattern list is an initial segment of the other
list. -/
def leadsWith : List Char → List Char → Bool
  | [], _ => true
  | _ :: _, [] => false
  | a :: as, b :: bs => a = b && leadsWith as bs

/-- Decide whether the first list occurs contiguously inside the
second, modelling `String.prototype.includes`. -/
def hasSub (needle : List Char) : List Char → Bool
  | [] => needle.isEmpty
  | c :: rest => leadsWith needle (c :: rest) || hasSub needle rest

/-- Model of `comment.body?.includes(COMMENT_MARKER)`. -/
def bodyHasMarker (b : Option String) : Bool :=
  match b with
  | none => false
  | some s => hasSub COMMENT_MARKER.data s.data

/-- JavaScript `a || b || 0` on optional numbers, where 0 is falsy. -/
def jsOrNat (a b : Option Nat) : Nat :=
  match a with
  | some n => if n = 0 then b.getD 0 else n
  | none => b.getD 0

/-- Mapping of one fetched comment to a violation comment, following
`getExistingComments`: the resolved flag is the presence of the
comment's own reply-to field. -/
def toViolationComment (c : ReviewComment) : ViolationComment :=
  ⟨c.id, c.path, c.body.getD "", c.in_reply_to_id.isSome, jsOrNat c.line c.original_line⟩

/-- Model of `getExistingComments`: keep the fetched comments whose
body contains the marker and map them to violation comments. -/
def getExistingComments (comments : List ReviewComment) : List ViolationComment :=
  (comments.filter (fun c => bodyHasMarker c.body)).map toViolationComment

/-- One mutation call issued against the external comment store. -/
inductive Call where
  | delete (commentId : Nat)
  | create (line : Nat) (body : String)
  | update (commentId : Nat) (body : String)
  | reply (commentId : Nat) (body : String)
deriving DecidableEq

/-- True of annotation-creation calls. -/
def isCreateCall : Call → Bool
  | .create _ _ => true
  | _ => false

/-- True of annotation-deletion calls. -/
def isDeleteCall : Call → Bool
  | .delete _ => true
  | _ => false

/-- True of a creation call anchored at the given line. -/
def isCreateAt (c : Call) (ln : Nat) : Bool :=
  match c with
  | .create l _ => l = ln
  | _ => false

/-- Comment body built by `createViolationComments` for one hunk. -/
def commentBody (filePath content : String) : String :=
  COMMENT_MARKER
    ++ "\n**CSharpier**: This section is not formatted correctly.\n\n```suggestion\n"
    ++ content ++ "\n```\n\nRun `dotnet csharpier format " ++ filePath
    ++ "` to fix the formatting."

/-- A changed file of the pull request as returned by `listFiles`, with
its patch already parsed by the external `parse-diff` library; `none`
models a missing patch. -/
structure PRFile where
  filename : String
  patch : Option (List FileDiff)
deriving DecidableEq

/-- Desired (line, body) annotations for a file: one per formatting
hunk whose anchor line is visible in the pull request diff. -/
def createPairs (parsed : List FileDiff)
    (originalContent formattedContent filePath : String) : List (Nat × String) :=
  (generateFormattingHunks originalContent formattedContent).filterMap fun h =>
    let ln := findLineInPRDiff parsed h.lineNumber
    if ln = 0 then none
    else some (ln, commentBody filePath h.content)

/-- The unresolved comments of a list. -/
def unresolvedOf (comments : List ViolationComment) : List ViolationComment :=
  comments.filter (fun c => !c.isResolved)

/-- Model of `createViolationComments` from `comment-manager.ts` as the
list of mutation calls it issues (no call fails): find the file's
patch, bail out silently when it is absent or no hunks exist, then
delete every existing unresolved comment of the file and create one
comment per hunk that is visible in the pull request diff. -/
def createViolationComments (files : List PRFile) (filePath : String)
    (originalContent formattedContent : String)
    (existingComments : List ViolationComment) : List Call :=
  match files.find? (fun f => f.filename = filePath) with
  | none => []
  | some file =>
    match file.patch with
    | none => []
    | some parsed =>
      if generateFormattingHunks originalContent formattedContent = [] then []
      else
        (unresolvedOf existingComments).map (fun c => Call.delete c.id)
          ++ (createPairs parsed originalContent formattedContent filePath).map
              (fun p => Call.create p.1 p.2)

/-- The violation comments created by one run of
`createViolationComments`, with identifiers assigned from `fresh`. -/
def createdComments (filePath : String) (fresh : Nat)
    (pairs : List (Nat × String)) : List ViolationComment :=
  pairs.enum.map (fun p => ⟨fresh + p.1, filePath, p.2.2, false, p.2.1⟩)

/-- Effect of one `createViolationComments` pass on the file's comment
set: on the early-return paths nothing changes; otherwise the
unresolved comments are deleted and the visible hunks are created. -/
def reconcileState (files : List PRFile) (filePath : String)
    (originalContent formattedContent : String) (fresh : Nat)
    (existingComments : List ViolationComment) : List ViolationComment :=
  match files.find? (fun f => f.filename = filePath) with
  | none => existingComments
  | some file =>
    match file.patch with
    | none => existingComments
    | some parsed =>
      if generateFormattingHunks originalContent formattedContent = [] then
        existingComments
      else
        existingComments.filter (fun c => c.isResolved)
          ++ createdComments filePath fresh
              (createPairs parsed originalContent formattedContent filePath)

/-- Body of the resolution reply posted by `resolveFixedComments`. -/
def RESOLVE_BODY : String := "✓ Formatting has been fixed."

/-- Model of `resolveFixedComments`: one reply per unresolved comment
whose path is in the fixed file list; nothing is deleted. -/
def resolveFixedComments (existingComments : List ViolationComment)
    (fixedFiles : List String) : List Call :=
  (existingComments.filter
      (fun c => !c.isResolved && fixedFiles.contains c.path)).map
    (fun c => Call.reply c.id RESOLVE_BODY)

/-- Fixed-file computation of the main entry point: paths of existing
comments that are no longer among the unformatted files. -/
def fixedFilesOf (existingComments : List ViolationComment)
    (unformattedFiles : List String) : List String :=
  (existingComments.map (fun c => c.path)).filter
    (fun p => !unformattedFiles.contains p)

namespace V2

/-- Maximal contiguous change blocks of a hunk's lines, as index pairs
(start, stop); models the change-collection loop of the splitting
variant of `generateFormattingHunks`. -/
def collectBlocks : Nat → Option Nat → List DiffLine → List (Nat × Nat)
  | _, none, [] => []
  | i, some s, [] => [(s, i - 1)]
  | i, none, l :: ls =>
    if isChange l then collectBlocks (i + 1) (some i) ls
    else collectBlocks (i + 1) none ls
  | i, some s, l :: ls =>
    if isChange l then collectBlocks (i + 1) (some s) ls
    else (s, i - 1) :: collectBlocks (i + 1) none ls

/-- Sub-hunk construction of the splitting variant: pad the change
block by three lines of context clamped to the hunk, anchor at the
new-file line number of the first change line found inside the padded
window, and take every context or addition line of the window as the
content. -/
def subHunkOf (h : Hunk) (blk : Nat × Nat) : FormattingHunk :=
  let startIndex := blk.1 - 3
  let endIndex := min (h.lines.length - 1) (blk.2 + 3)
  let window := (h.lines.drop startIndex).take (endIndex - startIndex + 1)
  let anchor :=
    match window.findIdx? isChange with
    | some j => h.newStart + (h.lines.take (startIndex + j)).countP isNewSide
    | none => h.newStart + (h.lines.take blk.1).countP isNewSide
  ⟨anchor, joinLines (window.filterMap newText),
    h.oldStart, h.oldStart + h.oldLines - 1⟩

/-- Splitting variant of `generateFormattingHunks`: one formatting
hunk per contiguous change block of each diff hunk. -/
def generateFormattingHunks (originalContent formattedContent : String) :
    List FormattingHunk :=
  (structuredPatch (splitLines originalContent)
    (splitLines formattedContent)).flatMap
    (fun h => (collectBlocks 0 none h.lines).map (subHunkOf h))

/-- Comment body of the splitting variant. -/
def commentBody (filePath content : String) : String :=
  COMMENT_MARKER
    ++ "\nThis section is not formatted according to CSharpier rules.\n\n```suggestion\n"
    ++ content ++ "\n```\n\nRun `dotnet csharpier format " ++ filePath
    ++ "` to fix the formatting."

/-- Update-in-place variant of `createViolationComments`: per visible
hunk, skip when an existing unresolved comment at the same line has an
identical body, update it when the body differs, and create a comment
otherwise; the existing-comment list is never refreshed inside the
loop. -/
def createViolationComments (files : List PRFile) (filePath : String)
    (originalContent formattedContent : String)
    (existingComments : List ViolationComment) : List Call :=
  match files.find? (fun f => f.filename = filePath) with
  | none => []
  | some file =>
    match file.patch with
    | none => []
    | some parsed =>
      let hunks := generateFormattingHunks originalContent formattedContent
      if hunks = [] then []
      else
        hunks.filterMap fun h =>
          let ln := findLineInPRDiff parsed h.lineNumber
          if ln = 0 then none
          else
            let body := commentBody filePath h.content
            match existingComments.find? (fun c => c.line = ln && !c.isResolved) with
            | some c => if c.body = body then none else some (Call.update c.id body)
            | none => some (Call.create ln body)

end V2

/-- Comments created by a list of calls, with identifiers assigned
from `fresh`. -/
def createdOf (filePath : String) (fresh : Nat) (calls : List Call) :
    List ViolationComment :=
  (calls.filterMap (fun c =>
      match c with
      | Call.create ln b => some (ln, b)
      | _ => none)).enum.map
    (fun p => ⟨fresh + p.1, filePath, p.2.2, false, p.2.1⟩)

/-- Apply the update calls of a call list to one comment. -/
def applyUpd (calls : List Call) (c : ViolationComment) : ViolationComment :=
  calls.foldl
    (fun acc call =>
      match call with
      | Call.update cid b => if cid = acc.id then { acc with body := b } else acc
      | _ => acc) c

/-- Comment set after applying an update/create call list (as issued by
the update-in-place variant, which never deletes). -/
def postState (filePath : String) (fresh : Nat)
    (existing : List ViolationComment) (calls : List Call) :
    List ViolationComment :=
  existing.map (applyUpd calls) ++ createdOf filePath fresh calls

/-- Number of unresolved tool-owned comments of a file anchored at a
given line. -/
def unresolvedAtLine (comments : List ViolationComment) (p : String) (ln : Nat) : Nat :=
  comments.countP
    (fun c => !c.isResolved && c.path = p && c.line = ln
      && bodyHasMarker (some c.body))

/-- Creation calls attempted for the desired pairs when a call may
fail: a failing creation is the last attempted call of its file, since
the failure aborts the per-file loop. -/
def createsUntilFailure (failOn : Call → Bool) : List (Nat × String) → List Call
  | [] => []
  | p :: ps =>
    let c := Call.create p.1 p.2
    if failOn c then [c] else c :: createsUntilFailure failOn ps

/-- Failure-aware `createViolationComments`: every delete is attempted
even when earlier deletes fail (each is individually caught), while a
failing create aborts the remaining hunks of the file. -/
def createViolationCommentsF (failOn : Call → Bool) (files : List PRFile)
    (filePath : String) (originalContent formattedContent : String)
    (existingComments : List ViolationComment) : List Call :=
  match files.find? (fun f => f.filename = filePath) with
  | none => []
  | some file =>
    match file.patch with
    | none => []
    | some parsed =>
      if generateFormattingHunks originalContent formattedContent = [] then []
      else
        (unresolvedOf existingComments).map (fun c => Call.delete c.id)
          ++ createsUntilFailure failOn
              (createPairs parsed originalContent formattedContent filePath)

/-- Reply calls attempted by `resolveFixedComments` when a call may
fail, with a flag telling whether the loop ran to completion: the loop
has no per-call handler, so the first failure aborts it. -/
def repliesUntilFailure (failOn : Call → Bool) :
    List ViolationComment → List Call × Bool
  | [] => ([], true)
  | c :: cs =>
    let call := Call.reply c.id RESOLVE_BODY
    if failOn call then ([call], false)
    else
      let r := repliesUntilFailure failOn cs
      (call :: r.1, r.2)

/-- Failure-aware `resolveFixedComments`. -/
def resolveFixedCommentsF (failOn : Call → Bool)
    (existing : List ViolationComment) (fixedFiles : List String) :
    List Call × Bool :=
  repliesUntilFailure failOn
    (existing.filter (fun c => !c.isResolved && fixedFiles.contains c.path))

/-- Original and formatted content of one unformatted file of a run. -/
structure FileData where
  path : String
  originalContent : String
  formattedContent : String
deriving DecidableEq

/-- Failure-aware model of the main entry point's mutation sequence:
resolve fixed files first, then reconcile each unformatted file. The
entry point wraps everything in one handler, so an uncaught failure in
the resolution loop aborts the whole run before any comment creation;
a failure inside one file's reconciliation is caught there and the
remaining files proceed. -/
def runF (failOn : Call → Bool) (files : List PRFile)
    (existing : List ViolationComment) (unformatted : List FileData) :
    List Call × Bool :=
  let r := resolveFixedCommentsF failOn existing
    (fixedFilesOf existing (unformatted.map (fun fd => fd.path)))
  if r.2 then
    (r.1 ++ (unformatted.map (fun fd =>
      createViolationCommentsF failOn files fd.path fd.originalContent
        fd.formattedContent
        (existing.filter (fun c => c.path = fd.path)))).flatten, true)
  else (r.1, false)

/-- Delimiter separating path/content segments in the formatter's
pipe-files protocol. -/
def DELIM : Char := '\x03'

/-- Nonempty segments of the formatter's standard output, split on the
delimiter, as in `formatFiles` of `csharpier-runner.ts`. -/
def splitResults (stdout : String) : List String :=
  ((splitOnChar DELIM stdout.data).map (fun l => String.mk l)).filter
    (fun s => 0 < s.length)

/-- JavaScript `Map.prototype.set` on an insertion-ordered association
list: an existing key is overwritten in place, a new key is appended. -/
def mapSet (m : List (String × String)) (k v : String) :
    List (String × String) :=
  if m.any (fun p => p.1 = k) then
    m.map (fun p => if p.1 = k then (k, v) else p)
  else m ++ [(k, v)]

/-- The pairing loop of `formatFiles`: set each file path to the
formatter segment at the same index, for indices below both lengths. -/
def buildFormattedMap (pairs : List (String × String)) :
    List (String × String) :=
  pairs.foldl (fun m p => mapSet m p.1 p.2) []

/-- Model of `formatFiles` from `csharpier-runner.ts`: the boolean
records whether the formatter process was invoked, and the association
list is the returned map of file path to formatted content. -/
def formatFiles (files : List String) (stdout : String) :
    Bool × List (String × String) :=
  if files.isEmpty then (false, [])
  else (true, buildFormattedMap (files.zip (splitResults stdout)))

/-- Whether one chunk of the pull request diff reaches a target line:
the tracked new-file counter starts at the chunk's declared start and
advances once per add or normal entry, so the tracked values are the
`newStart + i` for `i` below the number of such entries. -/
def chunkCovers (ch : PRChunk) (t : Nat) : Bool :=
  decide (ch.newStart ≤ t)
    && decide (t < ch.newStart + ch.changes.countP isNewLineChange)

/-- Modelled from the spec: a target line is visible in the pull
request diff when the new-file line counter of some chunk of the first
parsed file, starting at the chunk's declared start and advancing on
add and normal entries only, reaches it. -/
def specVisibleLine (parsed : List FileDiff) (t : Nat) : Bool :=
  match parsed with
  | [] => false
  | file :: _ => file.chunks.any (fun ch => chunkCovers ch t)

/-- Well-formedness of a parsed patch: every chunk declares a positive
new-file start line, as the unified diff format guarantees. -/
def chunksPositive (parsed : List FileDiff) : Bool :=
  parsed.all (fun fd => fd.chunks.all (fun ch => 1 ≤ ch.newStart))

/-- Whether a string equals the join of some nonempty contiguous slice
of the given file lines. -/
def isSliceOf (content : String) (fileLines : List String) : Bool :=
  (List.range (fileLines.length + 1)).any fun i =>
    (List.range (fileLines.length + 1)).any fun k =>
      decide (0 < k) && decide (joinLines ((fileLines.drop i).take k) = content)

/-- Original content of the two-change example file. -/
def origC : String := "A\nB\nC\nD\nE"

/-- Formatted content of the two-change example file: two independent
single-line changes separated by the unchanged line `C`. -/
def fmtC : String := "A\nX\nC\nY\nE"

/-- Pull request view of the two-change example file: one chunk showing
the whole file. -/
def filesC : List PRFile :=
  [⟨"c.cs", some [⟨[⟨1, [.normal, .del, .add, .normal, .del, .add, .normal]⟩]⟩]⟩]

/-- Calls issued by the splitting variant on the two-change example
with no pre-existing comments. -/
def callsC : List Call :=
  V2.createViolationComments filesC "c.cs" origC fmtC []

/-- Original content of the one-change example file. -/
def orig1 : String := "A\nB"

/-- Formatted content of the one-change example file. -/
def fmt1 : String := "A\nX"

/-- Pull request view of the one-change example file. -/
def files1 : List PRFile :=
  [⟨"a.cs", some [⟨[⟨1, [.normal, .del, .add]⟩]⟩]⟩]

/-- Fetched comment list with a reply: comment 2 is a reply to
comment 1 and both carry the marker. -/
def ex4 : List ReviewComment :=
  [⟨1, "a.cs", some (COMMENT_MARKER ++ "\nIssue"), none, some 5, none⟩,
   ⟨2, "a.cs", some (COMMENT_MARKER ++ "\nThanks"), some 1, some 5, none⟩]

/-- One unresolved tool-owned comment on a fixed file. -/
def exC9 : List ViolationComment :=
  [⟨1, "a.cs", COMMENT_MARKER ++ "\nIssue", false, 5⟩]

/-- Failure oracle that fails exactly the reply to comment 1. -/
def failReply1 : Call → Bool
  | .reply 1 _ => true
  | _ => false

/-- One still-unformatted file for the failure-isolation scenario. -/
def unfC9 : List FileData := [⟨"b.cs", orig1, fmt1⟩]

/-- Pull request view of the still-unformatted file. -/
def filesB : List PRFile :=
  [⟨"b.cs", some [⟨[⟨1, [.normal, .del, .add]⟩]⟩]⟩]

/-- Characterization of the per-chunk walk: it returns the target line
exactly when the target lies in the range of tracked line numbers. -/
theorem findInChunk_eq (cs : List ChangeType) (t : Nat) : ∀ cur : Nat,
    findInChunk t cur cs =
      if cur ≤ t ∧ t < cur + cs.countP isNewLineChange then some t else none := by
  induction cs with
  | nil =>
    intro cur
    simp only [findInChunk, List.countP_nil]
    rw [if_neg (by omega)]
  | cons c cs ih =>
    intro cur
    by_cases hc : isNewLineChange c = true
    · have hcount : (c :: cs).countP isNewLineChange = cs.countP isNewLineChange + 1 := by
        simp [List.countP_cons, hc]
      rw [hcount]
      simp only [findInChunk, hc, if_true]
      by_cases he : cur = t
      · subst he
        rw [if_pos rfl, if_pos (by omega)]
      · rw [if_neg he, ih (cur + 1)]
        by_cases h1 : cur + 1 ≤ t ∧ t < cur + 1 + cs.countP isNewLineChange
        · rw [if_pos h1, if_pos (by omega)]
        · rw [if_neg h1, if_neg (by omega)]
    · rw [Bool.not_eq_true] at hc
      have hcount : (c :: cs).countP isNewLineChange = cs.countP isNewLineChange := by
        simp [List.countP_cons, hc]
      rw [hcount]
      simp only [findInChunk, hc, Bool.false_eq_true, if_false]
      exact ih cur

/-- Characterization of the chunk-list walk. -/
theorem findInChunks_eq (t : Nat) : ∀ chs : List PRChunk,
    findInChunks t chs =
      if chs.any (fun ch => chunkCovers ch t) = true then some t else none := by
  intro chs
  induction chs with
  | nil => simp [findInChunks]
  | cons ch rest ih =>
    simp only [findInChunks, findInChunk_eq, List.any_cons]
    by_cases h : chunkCovers ch t = true
    · have hp : ch.newStart ≤ t ∧ t < ch.newStart + ch.changes.countP isNewLineChange := by
        simpa [chunkCovers] using h
      rw [if_pos hp]
      simp [h]
    · have hp : ¬ (ch.newStart ≤ t ∧ t < ch.newStart + ch.changes.countP isNewLineChange) := by
        simpa [chunkCovers] using h
      rw [if_neg hp, ih]
      simp only [Bool.not_eq_true] at h
      simp [h]

/-- The lookup returns the target line exactly when the target is
visible among the tracked line numbers, and 0 otherwise. -/
theorem findLine_spec (parsed : List FileDiff) (t : Nat) :
    findLineInPRDiff parsed t = if specVisibleLine parsed t = true then t else 0 := by
  cases parsed with
  | nil => simp [findLineInPRDiff, specVisibleLine]
  | cons f rest =>
    simp only [findLineInPRDiff, specVisibleLine, findInChunks_eq]
    by_cases h : f.chunks.any (fun ch => chunkCovers ch t) = true
    · simp [h]
    · simp only [Bool.not_eq_true] at h
      simp [h]

/-- A visible line is positive when every chunk start is positive. -/
theorem specVisibleLine_pos (parsed : List FileDiff) (t : Nat)
    (hpos : chunksPositive parsed = true)
    (hvis : specVisibleLine parsed t = true) : 1 ≤ t := by
  cases parsed with
  | nil => simp [specVisibleLine] at hvis
  | cons f rest =>
    simp only [specVisibleLine, List.any_eq_true] at hvis
    obtain ⟨ch, hmem, hcov⟩ := hvis
    simp only [chunkCovers, Bool.and_eq_true, decide_eq_true_eq] at hcov
    simp only [chunksPositive, List.all_cons, Bool.and_eq_true, List.all_eq_true,
      decide_eq_true_eq] at hpos
    exact le_trans (hpos.1 ch hmem) hcov.1

/-- C6: for every parsed pull request patch and target line,
`findLineInPRDiff` walks the chunks in order tracking a new-file line
counter that starts at each chunk's declared start and advances only on
add and normal entries, and it returns the first tracked value equal to
the target — hence the result is the target line itself when the target
is reached by some chunk, and 0 otherwise. -/
theorem C6_findLineInPRDiff_visible_or_zero (parsed : List FileDiff) (t : Nat) :
    findLineInPRDiff parsed t = (if specVisibleLine parsed t = true then t else 0)
    ∧ (findLineInPRDiff parsed t = t ∨ findLineInPRDiff parsed t = 0) := by
  refine ⟨findLine_spec parsed t, ?_⟩
  rw [findLine_spec parsed t]
  by_cases h : specVisibleLine parsed t = true
  · exact Or.inl (by rw [if_pos h])
  · exact Or.inr (by rw [if_neg h])

/-- Membership description of the desired annotations: each comes from
a hunk whose anchor line is visible, and carries exactly that anchor
line and body. -/
theorem createPairs_mem (parsed : List FileDiff) (o f fp : String)
    (p : Nat × String) (hp : p ∈ createPairs parsed o f fp) :
    ∃ h ∈ generateFormattingHunks o f,
      specVisibleLine parsed h.lineNumber = true
      ∧ p = (h.lineNumber, commentBody fp h.content) := by
  simp only [createPairs, List.mem_filterMap] at hp
  obtain ⟨h, hmem, heq⟩ := hp
  rw [findLine_spec] at heq
  by_cases hv : specVisibleLine parsed h.lineNumber = true
  · rw [if_pos hv] at heq
    by_cases hz : h.lineNumber = 0
    · rw [if_pos hz] at heq
      cases heq
    · rw [if_neg hz] at heq
      exact ⟨h, hmem, hv, (Option.some_inj.mp heq).symm⟩
  · rw [if_neg hv, if_pos rfl] at heq
    cases heq

/-- Counting description of the desired annotations: when every chunk
start is positive, there is exactly one desired annotation per hunk
with a visible anchor line. -/
theorem createPairs_length (parsed : List FileDiff) (o f fp : String)
    (hpos : chunksPositive parsed = true) :
    (createPairs parsed o f fp).length
      = (generateFormattingHunks o f).countP
          (fun h => specVisibleLine parsed h.lineNumber) := by
  unfold createPairs
  induction generateFormattingHunks o f with
  | nil => rfl
  | cons h hs ih =>
    rw [List.filterMap_cons, List.countP_cons]
    by_cases hv : specVisibleLine parsed h.lineNumber = true
    · have hz : h.lineNumber ≠ 0 := by
        have := specVisibleLine_pos parsed h.lineNumber hpos hv
        omega
      rw [findLine_spec, if_pos hv, if_neg hz]
      simp only [List.length_cons, ih, hv, if_true]
    · rw [findLine_spec, if_neg hv, if_pos rfl]
      have : (specVisibleLine parsed h.lineNumber : Bool) = false := by
        rw [Bool.not_eq_true] at hv; exact hv
      simp only [ih, this, Bool.false_eq_true, if_false, Nat.add_zero]

/-- Unfolding of `createViolationComments` when the file and patch are
found and hunks exist. -/
theorem createViolationComments_eq (files : List PRFile) (fp o f : String)
    (ex : List ViolationComment) (file : PRFile) (parsed : List FileDiff)
    (hfind : files.find? (fun fl => fl.filename = fp) = some file)
    (hpatch : file.patch = some parsed)
    (hne : generateFormattingHunks o f ≠ []) :
    createViolationComments files fp o f ex
      = (unresolvedOf ex).map (fun c => Call.delete c.id)
        ++ (createPairs parsed o f fp).map (fun p => Call.create p.1 p.2) := by
  unfold createViolationComments
  rw [hfind]
  dsimp only
  rw [hpatch]
  dsimp only
  rw [if_neg hne]

/-- Unfolding of `reconcileState` when the file and patch are found
and hunks exist. -/
theorem reconcileState_eq (files : List PRFile) (fp o f : String)
    (fresh : Nat) (ex : List ViolationComment) (file : PRFile)
    (parsed : List FileDiff)
    (hfind : files.find? (fun fl => fl.filename = fp) = some file)
    (hpatch : file.patch = some parsed)
    (hne : generateFormattingHunks o f ≠ []) :
    reconcileState files fp o f fresh ex
      = ex.filter (fun c => c.isResolved)
        ++ createdComments fp fresh (createPairs parsed o f fp) := by
  unfold reconcileState
  rw [hfind]
  dsimp only
  rw [hpatch]
  dsimp only
  rw [if_neg hne]

/-- C7: a formatting hunk whose anchor line is not visible among the
pull request's chunks maps to 0 and produces no creation call at that
line, while every visible hunk still produces exactly one creation
call — the invisible hunk is skipped silently, not treated as an
error. -/
theorem C7_invisible_hunk_silently_skipped (files : List PRFile)
    (fp o f : String) (ex : List ViolationComment) (file : PRFile)
    (parsed : List FileDiff) (t : Nat)
    (hfind : files.find? (fun fl => fl.filename = fp) = some file)
    (hpatch : file.patch = some parsed)
    (hpos : chunksPositive parsed = true)
    (hvis : specVisibleLine parsed t = false) :
    findLineInPRDiff parsed t = 0
    ∧ (∀ call ∈ createViolationComments files fp o f ex, isCreateAt call t = false)
    ∧ (createViolationComments files fp o f ex).countP isCreateCall
        = (generateFormattingHunks o f).countP
            (fun h => specVisibleLine parsed h.lineNumber) := by
  have hzero : findLineInPRDiff parsed t = 0 := by
    rw [findLine_spec, if_neg (by rw [hvis]; exact Bool.false_ne_true)]
  have hempty : generateFormattingHunks o f = [] →
      createViolationComments files fp o f ex = [] := by
    intro hne
    unfold createViolationComments
    rw [hfind]
    dsimp only
    rw [hpatch]
    dsimp only
    rw [if_pos hne]
  refine ⟨hzero, ?_, ?_⟩
  · intro call hcall
    by_cases hne : generateFormattingHunks o f = []
    · rw [hempty hne] at hcall
      cases hcall
    · rw [createViolationComments_eq files fp o f ex file parsed hfind hpatch hne] at hcall
      rcases List.mem_append.mp hcall with hd | hc
      · obtain ⟨c, _, rfl⟩ := List.mem_map.mp hd
        rfl
      · obtain ⟨p, hpmem, rfl⟩ := List.mem_map.mp hc
        obtain ⟨h, _, hv, rfl⟩ := createPairs_mem parsed o f fp p hpmem
        simp only [isCreateAt]
        rw [decide_eq_false_iff_not]
        intro hlt
        rw [hlt] at hv
        rw [hv] at hvis
        cases hvis
  · by_cases hne : generateFormattingHunks o f = []
    · rw [hempty hne, hne]
      rfl
    · rw [createViolationComments_eq files fp o f ex file parsed hfind hpatch hne,
        List.countP_append, List.countP_map, List.countP_map]
      have h1 : ((unresolvedOf ex).countP (isCreateCall ∘ fun c => Call.delete c.id)) = 0 := by
        rw [List.countP_eq_zero]
        intro c _
        simp [Function.comp, isCreateCall]
      have h2 : ((createPairs parsed o f fp).countP
          (isCreateCall ∘ fun p => Call.create p.1 p.2))
          = (createPairs parsed o f fp).length := by
        rw [List.countP_eq_length]
        intro p _
        rfl
      rw [h1, h2, createPairs_length parsed o f fp hpos, Nat.zero_add]

/-- Witness for C7 at the one-change example: line 7 is not visible in
the pull request patch of the example file. -/
theorem C7_witness :
    findLineInPRDiff [⟨[⟨1, [.normal, .del, .add]⟩]⟩] 7 = 0
    ∧ (∀ call ∈ createViolationComments files1 "a.cs" orig1 fmt1 [],
        isCreateAt call 7 = false)
    ∧ (createViolationComments files1 "a.cs" orig1 fmt1 []).countP isCreateCall
        = (generateFormattingHunks orig1 fmt1).countP
            (fun h => specVisibleLine [⟨[⟨1, [.normal, .del, .add]⟩]⟩] h.lineNumber) :=
  C7_invisible_hunk_silently_skipped files1 "a.cs" orig1 fmt1 []
    ⟨"a.cs", some [⟨[⟨1, [.normal, .del, .add]⟩]⟩]⟩
    [⟨[⟨1, [.normal, .del, .add]⟩]⟩] 7
    (by decide) (by decide) (by decide) (by decide)

/-- The created comments of a pass project back onto the desired
(line, body) pairs. -/
theorem createdComments_pairs (fp : String) (fresh : Nat)
    (ps : List (Nat × String)) :
    (createdComments fp fresh ps).map (fun c => (c.line, c.body)) = ps := by
  unfold createdComments
  rw [List.map_map]
  have : ((fun c : ViolationComment => (c.line, c.body))
      ∘ fun p : Nat × (Nat × String) => (⟨fresh + p.1, fp, p.2.2, false, p.2.1⟩ : ViolationComment))
      = fun p => p.2 := by
    funext p
    rfl
  rw [this]
  have h2 : (ps.enum.map fun p => p.2) = ps.enum.map Prod.snd := rfl
  rw [h2, List.enum_map_snd]

/-- Every comment of a pass's creations is unresolved, so the
unresolved part of the post-pass state is exactly the creations. -/
theorem unresolved_reconcileState (files : List PRFile) (fp o f : String)
    (fresh : Nat) (ex : List ViolationComment) (file : PRFile)
    (parsed : List FileDiff)
    (hfind : files.find? (fun fl => fl.filename = fp) = some file)
    (hpatch : file.patch = some parsed)
    (hne : generateFormattingHunks o f ≠ []) :
    unresolvedOf (reconcileState files fp o f fresh ex)
      = createdComments fp fresh (createPairs parsed o f fp) := by
  rw [reconcileState_eq files fp o f fresh ex file parsed hfind hpatch hne]
  unfold unresolvedOf
  rw [List.filter_append, List.filter_filter]
  have h1 : (ex.filter fun c => !c.isResolved && c.isResolved) = [] := by
    rw [List.filter_eq_nil_iff]
    intro c _
    cases c.isResolved <;> simp
  have h2 : (createdComments fp fresh (createPairs parsed o f fp)).filter
      (fun c => !c.isResolved) = createdComments fp fresh (createPairs parsed o f fp) := by
    rw [List.filter_eq_self]
    intro c hc
    unfold createdComments at hc
    obtain ⟨p, _, rfl⟩ := List.mem_map.mp hc
    rfl
  rw [h1, h2, List.nil_append]

/-- C1 (amended): the per-file reconciliation is not call-free on a
second run with unchanged inputs — it deletes every unresolved
annotation left by the first run (regardless of exact (line, body)
match) and re-creates one annotation per PR-visible hunk — but the
unresolved (line, body) annotation set is unchanged by the second
run. -/
theorem C1_second_run_repeats_calls (files : List PRFile) (fp o f : String)
    (ex : List ViolationComment) (fresh fresh2 : Nat) (file : PRFile)
    (parsed : List FileDiff)
    (hfind : files.find? (fun fl => fl.filename = fp) = some file)
    (hpatch : file.patch = some parsed)
    (hne : generateFormattingHunks o f ≠ [])
    (hcp : createPairs parsed o f fp ≠ []) :
    createViolationComments files fp o f (reconcileState files fp o f fresh ex) ≠ []
    ∧ (unresolvedOf (reconcileState files fp o f fresh2
          (reconcileState files fp o f fresh ex))).map (fun c => (c.line, c.body))
      = (unresolvedOf (reconcileState files fp o f fresh ex)).map
          (fun c => (c.line, c.body)) := by
  constructor
  · rw [createViolationComments_eq files fp o f _ file parsed hfind hpatch hne]
    intro hnil
    rcases List.append_eq_nil.mp hnil with ⟨_, hcr⟩
    exact hcp (List.map_eq_nil_iff.mp hcr)
  · rw [unresolved_reconcileState files fp o f fresh2 _ file parsed hfind hpatch hne,
      unresolved_reconcileState files fp o f fresh ex file parsed hfind hpatch hne,
      createdComments_pairs, createdComments_pairs]

/-- Counterexample to C1 as stated: on the one-change example, a second
run whose existing comments are exactly the annotations the first run
left behind still issues one delete and one create call, not zero. -/
theorem C1_counterexample :
    createViolationComments files1 "a.cs" orig1 fmt1
        (reconcileState files1 "a.cs" orig1 fmt1 10 [])
      = [Call.delete 10, Call.create 2 (commentBody "a.cs" "X")] := by
  decide

/-- Witness for C1 (amended) at the one-change example. -/
theorem C1_witness :
    createViolationComments files1 "a.cs" orig1 fmt1
        (reconcileState files1 "a.cs" orig1 fmt1 10 []) ≠ []
    ∧ (unresolvedOf (reconcileState files1 "a.cs" orig1 fmt1 20
          (reconcileState files1 "a.cs" orig1 fmt1 10 []))).map (fun c => (c.line, c.body))
      = (unresolvedOf (reconcileState files1 "a.cs" orig1 fmt1 10 [])).map
          (fun c => (c.line, c.body)) :=
  C1_second_run_repeats_calls files1 "a.cs" orig1 fmt1 [] 10 20
    ⟨"a.cs", some [⟨[⟨1, [.normal, .del, .add]⟩]⟩]⟩
    [⟨[⟨1, [.normal, .del, .add]⟩]⟩]
    (by decide) (by decide) (by decide) (by decide)

/-- A list is an initial segment of itself extended by anything. -/
theorem leadsWith_append (n r : List Char) : leadsWith n (n ++ r) = true := by
  induction n with
  | nil => rfl
  | cons c cs ih => simp [leadsWith, ih]

/-- A list occurs inside itself extended by anything. -/
theorem hasSub_append (n r : List Char) : hasSub n (n ++ r) = true := by
  cases n with
  | nil =>
    cases r with
    | nil => rfl
    | cons c cs => rfl
  | cons c cs =>
    show hasSub (c :: cs) (c :: (cs ++ r)) = true
    unfold hasSub
    rw [show (c :: (cs ++ r)) = (c :: cs) ++ r from rfl, leadsWith_append (c :: cs) r]
    rfl

/-- The body built for a hunk carries the marker. -/
theorem marker_commentBody (fp content : String) :
    bodyHasMarker (some (commentBody fp content)) = true := by
  unfold bodyHasMarker commentBody
  simp only [String.data_append, List.append_assoc]
  exact hasSub_append _ _

/-- The anchor lines of the desired annotations form a subsequence of
the hunks' anchor lines. -/
theorem createPairs_fst_sublist (parsed : List FileDiff) (o f fp : String) :
    ((createPairs parsed o f fp).map Prod.fst).Sublist
      ((generateFormattingHunks o f).map (fun h => h.lineNumber)) := by
  unfold createPairs
  induction generateFormattingHunks o f with
  | nil => simp
  | cons h hs ih =>
    rw [List.filterMap_cons, List.map_cons]
    dsimp only
    by_cases hv : findLineInPRDiff parsed h.lineNumber = 0
    · rw [if_pos hv]
      exact ih.cons h.lineNumber
    · rw [if_neg hv]
      have hvl : findLineInPRDiff parsed h.lineNumber = h.lineNumber := by
        rw [findLine_spec] at hv ⊢
        by_cases hvv : specVisibleLine parsed h.lineNumber = true
        · rw [if_pos hvv]
        · rw [if_neg hvv] at hv
          exact absurd rfl hv
      rw [List.map_cons, hvl]
      exact ih.cons₂ h.lineNumber

/-- The anchor lines of the created comments are the anchor lines of
the desired pairs. -/
theorem createdComments_lines (fp : String) (fresh : Nat)
    (ps : List (Nat × String)) :
    (createdComments fp fresh ps).map (fun c => c.line) = ps.map Prod.fst := by
  unfold createdComments
  rw [List.map_map]
  have h1 : ((fun c : ViolationComment => c.line) ∘ fun p : Nat × (Nat × String) =>
      (⟨fresh + p.1, fp, p.2.2, false, p.2.1⟩ : ViolationComment)) = fun p => p.2.1 := rfl
  rw [h1]
  have h2 : (ps.enum.map fun p => p.2.1) = (ps.enum.map Prod.snd).map Prod.fst := by
    rw [List.map_map]
    rfl
  rw [h2, List.enum_map_snd]

/-- C5 (amended): after a pass of the delete-all-then-recreate variant
(the current `createViolationComments`) completes on a file whose
hunks have pairwise distinct anchor lines, the unresolved comments are
all tool-owned and anchored at pairwise distinct lines. -/
theorem C5_pass_keeps_lines_unique (files : List PRFile) (fp o f : String)
    (fresh : Nat) (ex : List ViolationComment) (file : PRFile)
    (parsed : List FileDiff)
    (hfind : files.find? (fun fl => fl.filename = fp) = some file)
    (hpatch : file.patch = some parsed)
    (hne : generateFormattingHunks o f ≠ [])
    (hnd : ((generateFormattingHunks o f).map (fun h => h.lineNumber)).Nodup) :
    ((unresolvedOf (reconcileState files fp o f fresh ex)).map (fun c => c.line)).Nodup
    ∧ ∀ c ∈ unresolvedOf (reconcileState files fp o f fresh ex),
        bodyHasMarker (some c.body) = true := by
  rw [unresolved_reconcileState files fp o f fresh ex file parsed hfind hpatch hne]
  constructor
  · rw [createdComments_lines]
    exact List.Nodup.sublist (createPairs_fst_sublist parsed o f fp) hnd
  · intro c hc
    unfold createdComments at hc
    obtain ⟨p, hp, rfl⟩ := List.mem_map.mp hc
    have hsnd : p.2 ∈ createPairs parsed o f fp := by
      have : p.2 ∈ (createPairs parsed o f fp).enum.map Prod.snd :=
        List.mem_map_of_mem Prod.snd hp
      rwa [List.enum_map_snd] at this
    obtain ⟨h, _, _, hpe⟩ := createPairs_mem parsed o f fp p.2 hsnd
    have : p.2.2 = commentBody fp h.content := by
      rw [hpe]
    rw [this]
    exact marker_commentBody fp h.content

/-- Counterexample to C5 as stated: on the two-change example the
splitting variant anchors both sub-hunks at line 2, creates two
annotations there, and the completed pass leaves two unresolved
tool-owned annotations at the same diff-visible line of the file. -/
theorem C5_counterexample :
    unresolvedAtLine (postState "c.cs" 20 [] callsC) "c.cs" 2 = 2 := by
  decide

/-- Witness for C5 (amended) at the one-change example. -/
theorem C5_witness :
    ((unresolvedOf (reconcileState files1 "a.cs" orig1 fmt1 30 [])).map
        (fun c => c.line)).Nodup
    ∧ ∀ c ∈ unresolvedOf (reconcileState files1 "a.cs" orig1 fmt1 30 []),
        bodyHasMarker (some c.body) = true :=
  C5_pass_keeps_lines_unique files1 "a.cs" orig1 fmt1 30 []
    ⟨"a.cs", some [⟨[⟨1, [.normal, .del, .add]⟩]⟩]⟩
    [⟨[⟨1, [.normal, .del, .add]⟩]⟩]
    (by decide) (by decide) (by decide) (by decide)

/-- C2: on the example file with two single-line changes separated by
one unchanged line, the current `generateFormattingHunks` returns a
single formatting hunk spanning both change blocks, while the
splitting variant returns the two hunks its documentation and the
specification describe. -/
theorem C2_current_extraction_does_not_split :
    (generateFormattingHunks origC fmtC).length = 1
    ∧ (V2.generateFormattingHunks origC fmtC).length = 2 := by
  decide

/-- C3: on the two-change example the current extraction produces the
content "X\nY", skipping the unchanged middle line, and that string is
not the join of any contiguous slice of the reformatted file; the
contents produced by the splitting variant all are such slices. -/
theorem C3_content_round_trip_fails :
    (generateFormattingHunks origC fmtC).map (fun h => h.content) = ["X\nY"]
    ∧ isSliceOf "X\nY" (splitLines fmtC) = false
    ∧ (V2.generateFormattingHunks origC fmtC).all
        (fun h => isSliceOf h.content (splitLines fmtC)) = true := by
  decide

/-- C4 (amended): every violation comment returned by
`getExistingComments` is derived from a fetched marker-carrying comment
and has `isResolved` equal to whether that comment itself is a reply
(its own reply-to field is present); the presence elsewhere in the
list of replies to it plays no role. -/
theorem C4_isResolved_is_own_reply_flag (comments : List ReviewComment)
    (v : ViolationComment) (hv : v ∈ getExistingComments comments) :
    ∃ c ∈ comments, bodyHasMarker c.body = true ∧ v = toViolationComment c
      ∧ v.isResolved = c.in_reply_to_id.isSome := by
  unfold getExistingComments at hv
  obtain ⟨c, hc, rfl⟩ := List.mem_map.mp hv
  have hm := (List.mem_filter.mp hc).2
  exact ⟨c, (List.mem_filter.mp hc).1, hm, rfl, rfl⟩

/-- Counterexample to C4 as stated: comment 2 replies to comment 1 and
both carry the marker, yet the derived entry for comment 1 is
unresolved while the reply itself is marked resolved. -/
theorem C4_counterexample :
    (∃ r ∈ ex4, r.in_reply_to_id = some 1)
    ∧ (getExistingComments ex4).map (fun v => (v.id, v.isResolved))
        = [(1, false), (2, true)] := by
  decide

/-- Witness for C4 (amended) at the reply example. -/
theorem C4_witness :
    ∃ c ∈ ex4, bodyHasMarker c.body = true
      ∧ (⟨1, "a.cs", COMMENT_MARKER ++ "\nIssue", false, 5⟩ : ViolationComment)
          = toViolationComment c
      ∧ (⟨1, "a.cs", COMMENT_MARKER ++ "\nIssue", false, 5⟩ : ViolationComment).isResolved
          = c.in_reply_to_id.isSome :=
  C4_isResolved_is_own_reply_flag ex4
    ⟨1, "a.cs", COMMENT_MARKER ++ "\nIssue", false, 5⟩ (by decide)

/-- Comments of a marker-unique identifier list carry their identifier
exactly once. -/
theorem countP_id_unique (l : List ViolationComment)
    (hnd : (l.map (fun x => x.id)).Nodup) (c : ViolationComment) (hc : c ∈ l) :
    l.countP (fun x => x.id = c.id) = 1 := by
  induction l with
  | nil => cases hc
  | cons a l ih =>
    rw [List.map_cons, List.nodup_cons] at hnd
    rcases List.mem_cons.mp hc with rfl | hc'
    · rw [List.countP_cons_of_pos _ _ (by simp)]
      have hz : l.countP (fun x => decide (x.id = c.id)) = 0 := by
        rw [List.countP_eq_zero]
        intro x hx
        simp only [decide_eq_true_eq]
        intro hxe
        exact hnd.1 (hxe ▸ List.mem_map_of_mem (fun y => y.id) hx)
      rw [hz]
    · rw [List.countP_cons_of_neg, ih hnd.2 hc']
      simp only [decide_eq_true_eq]
      intro hae
      exact hnd.1 (hae ▸ List.mem_map_of_mem (fun y => y.id) hc')

/-- C8: for a file with no remaining violations that still carries
unresolved tool-owned annotations, `resolveFixedComments` together
with the entry point's fixed-file computation issues exactly one reply
call against each such annotation's identifier and no delete call. -/
theorem C8_one_reply_per_fixed_annotation (ex : List ViolationComment)
    (unformatted : List String) (c : ViolationComment)
    (hnd : (ex.map (fun x => x.id)).Nodup)
    (hc : c ∈ ex) (hres : c.isResolved = false)
    (hunf : unformatted.contains c.path = false) :
    (resolveFixedComments ex (fixedFilesOf ex unformatted)).countP
        (fun call => call = Call.reply c.id RESOLVE_BODY) = 1
    ∧ ∀ call ∈ resolveFixedComments ex (fixedFilesOf ex unformatted),
        isDeleteCall call = false := by
  have hmem : c.path ∈ fixedFilesOf ex unformatted := by
    unfold fixedFilesOf
    rw [List.mem_filter]
    refine ⟨List.mem_map_of_mem (fun x => x.path) hc, ?_⟩
    rw [hunf]
    rfl
  have hfixed : (fixedFilesOf ex unformatted).contains c.path = true := by
    simpa [List.elem_eq_mem, decide_eq_true_eq] using hmem
  have hpred : (!c.isResolved && (fixedFilesOf ex unformatted).contains c.path) = true := by
    rw [hres, hfixed]
    rfl
  constructor
  · unfold resolveFixedComments
    rw [List.countP_map]
    have hcong : ∀ x ∈ ex.filter
        (fun x => !x.isResolved && (fixedFilesOf ex unformatted).contains x.path),
        (((fun call => decide (call = Call.reply c.id RESOLVE_BODY))
          ∘ fun x => Call.reply x.id RESOLVE_BODY) x = true
          ↔ (fun x => decide (x.id = c.id)) x = true) := by
      intro x _
      simp [Function.comp, Call.reply.injEq]
    rw [List.countP_congr hcong]
    apply countP_id_unique
    · exact List.Nodup.sublist
        (List.Sublist.map (fun x => x.id) (List.filter_sublist ex)) hnd
    · exact List.mem_filter.mpr ⟨hc, hpred⟩
  · intro call hcall
    unfold resolveFixedComments at hcall
    obtain ⟨x, _, rfl⟩ := List.mem_map.mp hcall
    rfl

/-- Witness for C8: one unresolved annotation on a now-clean file. -/
theorem C8_witness :
    (resolveFixedComments exC9 (fixedFilesOf exC9 [])).countP
        (fun call => call = Call.reply 1 RESOLVE_BODY) = 1
    ∧ ∀ call ∈ resolveFixedComments exC9 (fixedFilesOf exC9 []),
        isDeleteCall call = false :=
  C8_one_reply_per_fixed_annotation exC9 []
    ⟨1, "a.cs", COMMENT_MARKER ++ "\nIssue", false, 5⟩
    (by decide) (by decide) (by decide) (by decide)

/-- When no creation call fails, all desired creations are attempted. -/
theorem createsUntilFailure_no_fail (failOn : Call → Bool)
    (hno : ∀ ln b, failOn (Call.create ln b) = false) :
    ∀ ps : List (Nat × String),
      createsUntilFailure failOn ps = ps.map (fun p => Call.create p.1 p.2) := by
  intro ps
  induction ps with
  | nil => rfl
  | cons p ps ih =>
    unfold createsUntilFailure
    dsimp only
    rw [hno p.1 p.2, if_neg (by exact Bool.false_ne_true), ih]
    rfl

/-- The resolution loop does not run to completion when some reply in
its worklist fails. -/
theorem repliesUntilFailure_fails (failOn : Call → Bool) :
    ∀ l : List ViolationComment,
      (∃ c ∈ l, failOn (Call.reply c.id RESOLVE_BODY) = true) →
      (repliesUntilFailure failOn l).2 = false := by
  intro l
  induction l with
  | nil =>
    intro h
    obtain ⟨c, hc, _⟩ := h
    cases hc
  | cons c cs ih =>
    intro h
    unfold repliesUntilFailure
    by_cases hf : failOn (Call.reply c.id RESOLVE_BODY) = true
    · rw [if_pos hf]
    · rw [if_neg hf]
      obtain ⟨d, hd, hdf⟩ := h
      rcases List.mem_cons.mp hd with rfl | hd'
      · exact absurd hdf hf
      · exact ih ⟨d, hd', hdf⟩

/-- Every call attempted by the resolution loop is a reply. -/
theorem repliesUntilFailure_all_replies (failOn : Call → Bool) :
    ∀ (l : List ViolationComment) (call : Call),
      call ∈ (repliesUntilFailure failOn l).1 →
      ∃ i, call = Call.reply i RESOLVE_BODY := by
  intro l
  induction l with
  | nil =>
    intro call h
    cases h
  | cons c cs ih =>
    intro call h
    unfold repliesUntilFailure at h
    by_cases hf : failOn (Call.reply c.id RESOLVE_BODY) = true
    · rw [if_pos hf] at h
      rcases List.mem_singleton.mp h with rfl
      exact ⟨c.id, rfl⟩
    · rw [if_neg hf] at h
      rcases List.mem_cons.mp h with rfl | h'
      · exact ⟨c.id, rfl⟩
      · exact ih call h'

/-- C9 (amended): only delete failures are fully isolated. When no
creation call fails, the failure-aware reconciliation attempts exactly
the calls of the failure-free one, so failing deletes are logged and
skipped without affecting the rest of the file; a failing creation is
always the last call attempted for its file (the remaining hunks are
abandoned); and a failing reply in the resolution loop aborts the
whole run, which then attempts no creation call at all. -/
theorem C9_failure_isolation_only_for_deletes :
    (∀ (failOn : Call → Bool) (files : List PRFile) (fp o f : String)
        (ex : List ViolationComment),
      (∀ ln b, failOn (Call.create ln b) = false) →
      createViolationCommentsF failOn files fp o f ex
        = createViolationComments files fp o f ex)
    ∧ (∀ (failOn : Call → Bool) (ps : List (Nat × String)) (c : Call),
        c ∈ createsUntilFailure failOn ps → failOn c = true →
        (createsUntilFailure failOn ps).getLast? = some c)
    ∧ (∀ (failOn : Call → Bool) (files : List PRFile)
        (ex : List ViolationComment) (unf : List FileData),
        (∃ c ∈ ex,
          (!c.isResolved
            && (fixedFilesOf ex (unf.map (fun fd => fd.path))).contains c.path) = true
          ∧ failOn (Call.reply c.id RESOLVE_BODY) = true) →
        (runF failOn files ex unf).2 = false
        ∧ ∀ call ∈ (runF failOn files ex unf).1, isCreateCall call = false) := by
  refine ⟨?_, ?_, ?_⟩
  · intro failOn files fp o f ex hno
    unfold createViolationCommentsF createViolationComments
    cases files.find? (fun fl => fl.filename = fp) with
    | none => rfl
    | some file =>
      dsimp only
      cases file.patch with
      | none => rfl
      | some parsed =>
        dsimp only
        by_cases hne : generateFormattingHunks o f = []
        · rw [if_pos hne, if_pos hne]
        · rw [if_neg hne, if_neg hne,
            createsUntilFailure_no_fail failOn hno]
  · intro failOn ps
    induction ps with
    | nil =>
      intro c hc _
      cases hc
    | cons p ps ih =>
      intro c hc hf
      unfold createsUntilFailure at hc ⊢
      by_cases hp : failOn (Call.create p.1 p.2) = true
      · rw [if_pos hp] at hc ⊢
        rcases List.mem_singleton.mp hc with rfl
        rfl
      · rw [if_neg hp] at hc ⊢
        rcases List.mem_cons.mp hc with rfl | hc'
        · exact absurd hf hp
        · have htail := ih c hc' hf
          have hne : createsUntilFailure failOn ps ≠ [] := by
            intro hnil
            rw [hnil] at hc'
            cases hc'
          cases hcs : createsUntilFailure failOn ps with
          | nil => exact absurd hcs hne
          | cons d ds =>
            rw [hcs] at htail
            rw [List.getLast?_cons_cons]
            exact htail
  · intro failOn files ex unf hex
    have hfail : (repliesUntilFailure failOn
        (ex.filter (fun c => !c.isResolved
          && (fixedFilesOf ex (unf.map (fun fd => fd.path))).contains c.path))).2
        = false := by
      apply repliesUntilFailure_fails
      obtain ⟨c, hc, hpred, hf⟩ := hex
      exact ⟨c, List.mem_filter.mpr ⟨hc, hpred⟩, hf⟩
    constructor
    · unfold runF resolveFixedCommentsF
      rw [if_neg (by rw [hfail]; exact Bool.false_ne_true)]
    · intro call hcall
      unfold runF resolveFixedCommentsF at hcall
      rw [if_neg (by rw [hfail]; exact Bool.false_ne_true)] at hcall
      obtain ⟨i, rfl⟩ := repliesUntilFailure_all_replies failOn _ call hcall
      rfl

/-- Counterexample to C9 as stated: a single failing reply call aborts
the whole run before any creation, so the still-unformatted file that
a failure-free run annotates receives nothing. -/
theorem C9_counterexample :
    (runF failReply1 filesB exC9 unfC9).2 = false
    ∧ (runF failReply1 filesB exC9 unfC9).1.countP isCreateCall = 0
    ∧ (runF (fun _ => false) filesB exC9 unfC9).1.countP isCreateCall = 1 := by
  decide

/-- Witness for C9 (amended): the three parts instantiated at a
delete-only failure oracle, a concrete failing creation, and the
failing-reply scenario. -/
theorem C9_witness :
    (createViolationCommentsF isDeleteCall filesB "b.cs" orig1 fmt1 exC9
      = createViolationComments filesB "b.cs" orig1 fmt1 exC9)
    ∧ ((createsUntilFailure (fun _ => true) [(2, "x"), (3, "y")]).getLast?
        = some (Call.create 2 "x"))
    ∧ ((runF failReply1 filesB exC9 unfC9).2 = false
        ∧ ∀ call ∈ (runF failReply1 filesB exC9 unfC9).1,
            isCreateCall call = false) :=
  ⟨C9_failure_isolation_only_for_deletes.1 isDeleteCall filesB "b.cs" orig1 fmt1
      exC9 (fun _ _ => rfl),
   C9_failure_isolation_only_for_deletes.2.1 (fun _ => true) [(2, "x"), (3, "y")]
      (Call.create 2 "x") (by decide) rfl,
   C9_failure_isolation_only_for_deletes.2.2 failReply1 filesB exC9 unfC9
      (by decide)⟩

/-- The first components of a zip are the first `min` elements of the
left list. -/
theorem zip_map_fst {α β : Type} (a : List α) (b : List β) :
    (a.zip b).map Prod.fst = a.take (min a.length b.length) := by
  induction a generalizing b with
  | nil => simp
  | cons x xs ih =>
    cases b with
    | nil => simp
    | cons y ys =>
      simp only [List.zip_cons_cons, List.map_cons, List.length_cons,
        Nat.succ_min_succ, List.take_succ_cons, ih]

/-- Folding `mapSet` over pairs with pairwise-distinct keys, none of
which occurs in the accumulator, just appends the pairs. -/
theorem buildMap_nodup : ∀ (pairs acc : List (String × String)),
    (pairs.map Prod.fst).Nodup →
    (∀ k ∈ pairs.map Prod.fst, ∀ q ∈ acc, q.1 ≠ k) →
    pairs.foldl (fun m p => mapSet m p.1 p.2) acc = acc ++ pairs := by
  intro pairs
  induction pairs with
  | nil =>
    intro acc _ _
    simp
  | cons p ps ih =>
    intro acc hnd hdisj
    rw [List.map_cons, List.nodup_cons] at hnd
    have hany : acc.any (fun q => q.1 = p.1) = false := by
      rw [List.any_eq_false]
      intro q hq
      simp only [decide_eq_true_eq]
      exact hdisj p.1 (List.mem_cons_self _ _) q hq
    have hstep : mapSet acc p.1 p.2 = acc ++ [p] := by
      unfold mapSet
      rw [if_neg (by rw [hany]; exact Bool.false_ne_true)]
    rw [List.foldl_cons, hstep, ih (acc ++ [p]) hnd.2 ?_, List.append_assoc]
    rfl
    intro k hk q hq
    rcases List.mem_append.mp hq with hq' | hq'
    · exact hdisj k (List.mem_cons_of_mem _ hk) q hq'
    · rcases List.mem_singleton.mp hq' with rfl
      intro he
      exact hnd.1 (he ▸ hk)

/-- C10: `formatFiles` pairs paths with formatter segments purely
positionally — for pairwise-distinct input paths the returned map is
the zip of the paths with the nonempty stdout segments, so its keys
are exactly the first `min(n, k)` input paths, each bound to the
segment at the same index; and for an empty input list it returns an
empty map without invoking the formatter. -/
theorem C10_formatFiles_positional (files : List String) (stdout : String)
    (hnd : files.Nodup) :
    (files = [] → formatFiles files stdout = (false, []))
    ∧ (files ≠ [] →
        formatFiles files stdout = (true, files.zip (splitResults stdout))
        ∧ (files.zip (splitResults stdout)).map Prod.fst
            = files.take (min files.length (splitResults stdout).length)) := by
  constructor
  · intro he
    subst he
    rfl
  · intro hne
    have hz : (files.zip (splitResults stdout)).map Prod.fst
        = files.take (min files.length (splitResults stdout).length) :=
      zip_map_fst files (splitResults stdout)
    refine ⟨?_, hz⟩
    unfold formatFiles
    rw [if_neg (by simpa [List.isEmpty_iff] using hne)]
    unfold buildFormattedMap
    rw [buildMap_nodup (files.zip (splitResults stdout)) [] ?_ ?_]
    · rfl
    · rw [hz]
      exact List.Nodup.sublist (List.take_sublist _ _) hnd
    · intro k _ q hq
      cases hq

/-- Witness for C10: two distinct paths and a one-segment output leave
the trailing path silently absent. -/
theorem C10_witness :
    ((["a.cs", "b.cs"] : List String) = [] →
      formatFiles ["a.cs", "b.cs"] "one\x03" = (false, []))
    ∧ ((["a.cs", "b.cs"] : List String) ≠ [] →
        formatFiles ["a.cs", "b.cs"] "one\x03"
          = (true, (["a.cs", "b.cs"] : List String).zip (splitResults "one\x03"))
        ∧ ((["a.cs", "b.cs"] : List String).zip (splitResults "one\x03")).map Prod.fst
            = (["a.cs", "b.cs"] : List String).take
                (min (["a.cs", "b.cs"] : List String).length (splitResults "one\x03").length)) :=
  C10_formatFiles_positional ["a.cs", "b.cs"] "one\x03" (by decide)

end CSharpier

